import Mathlib

/-!
Verification of the trace-root attribute propagation engine (`tracing.ts`:
`RootSpanContextProcessor` and `RootSpanUtil`).

The embedding models the two mutable maps of the source — the lifecycle
processor's private `roots : Map<traceId, Span>` and the accessor utility's
static `roots : Map<traceId, Span>` — together with every span's mutable
attribute map, as one explicit `World` state threaded through the operations.
Spans are immutable identity records (`traceId`, `spanId`, `parentSpanId`);
their attribute maps live in `World.heap`, keyed by `spanId`, so that
`span.setAttribute` is a heap update and JS reference identity between the
span objects of one SDK is span identity.  JS `Map` is modelled as an
association list with `Map.set` / `Map.get` / `Map.delete` semantics
(`mapSet` overwrites in place or appends, `mapGet` finds the entry,
`mapDelete` removes it); a JS attribute object is an association list whose
keys are unique, updated in place.
-/

namespace RootCtx

/-- A span's identity as the processor sees it: `span.spanContext().traceId`,
`span.spanContext().spanId`, and the optional `parentSpanId` field. -/
structure Span where
  traceId : String
  spanId : String
  parentSpanId : Option String := none
  deriving DecidableEq, Repr

/-- An execution context as consumed by the processor: the span stored in it
(`trace.getSpan(ctx)`) and its baggage entries
(`propagation.getBaggage(ctx)?.getAllEntries()`), key/value pairs. -/
structure Context where
  activeSpan : Option Span
  baggage : List (String × String)
  deriving DecidableEq, Repr

/-- `trace.getSpan(context)`: the span stored in the context, absent when the
context carries none (or no context is given). -/
def getSpanFromContext : Option Context → Option Span
  | some c => c.activeSpan
  | none => none

/-- JS `Map.prototype.get`. -/
def mapGet {α : Type} : List (String × α) → String → Option α
  | [], _ => none
  | (k1, v1) :: rest, k => if k1 = k then some v1 else mapGet rest k

/-- JS `Map.prototype.set`: overwrite the entry in place when the key is
present, append otherwise (also the update of a JS object property, which
keeps the original insertion position of an existing key). -/
def mapSet {α : Type} : List (String × α) → String → α → List (String × α)
  | [], k, v => [(k, v)]
  | (k1, v1) :: rest, k, v =>
    if k1 = k then (k, v) :: rest else (k1, v1) :: mapSet rest k v

/-- JS `Map.prototype.delete`. -/
def mapDelete {α : Type} (m : List (String × α)) (k : String) : List (String × α) :=
  m.filter (fun e => !(e.1 == k))

/-- A span's attribute map: key/value pairs, scalar values as strings. -/
abbrev Attrs := List (String × String)

/-- The mutable state of `tracing.ts`: the processor's `roots` map, the
utility's static `roots` map, and every span's attribute map keyed by
`spanId`. -/
structure World where
  procRoots : List (String × Span)
  utilRoots : List (String × Span)
  heap : String → Attrs

/-- The state at SDK start: both maps empty, every span attribute-less. -/
def World.init : World := ⟨[], [], fun _ => []⟩

/-- `s.setAttribute(k, v)`: update span `s`'s attribute map in the heap. -/
def setAttribute (w : World) (s : Span) (k v : String) : World :=
  { w with heap := fun i => if i = s.spanId then mapSet (w.heap i) k v else w.heap i }

/-- JS `String.prototype.startsWith`, on the character lists of the strings. -/
def strStartsWith (s pre : String) : Bool := pre.data.isPrefixOf s.data

/-- The propagation policy of `RootSpanContextProcessor.onEnd`:
`k.startsWith('error_') || k === 'custom_attribute' || k === 'merchant_name'`. -/
def matchesPolicy (k : String) : Bool :=
  strStartsWith k "error_" || k == "custom_attribute" || k == "merchant_name"

/-- The baggage loop of `onStart`:
`bag.getAllEntries().forEach(([k, v]) => span.setAttribute('baggage.' + k, v.value))`. -/
def baggageLoop (span : Span) : World → List (String × String) → World
  | w, [] => w
  | w, kv :: rest =>
    baggageLoop span (setAttribute w span ("baggage." ++ kv.1) kv.2) rest

/-- `RootSpanContextProcessor.onStart(span, parentContext)`: register the span
as its trace's root when the parent context carries no span and no root is
registered yet for the traceId, then stamp the baggage entries of
`parentContext ?? otelContext.active()` onto the span.  `parentContext` is
passed as an option only to mirror the source's `??` fallback to the ambient
context; the SDK always supplies it. -/
def Processor.onStart (w : World) (span : Span) (parentContext : Option Context)
    (ambient : Context) : World :=
  let w1 :=
    if getSpanFromContext parentContext = none then
      if mapGet w.procRoots span.traceId = none then
        { w with procRoots := mapSet w.procRoots span.traceId span }
      else w
    else w
  baggageLoop span w1 (parentContext.getD ambient).baggage

/-- The propagation loop of `onEnd`: for each attribute entry of the ending
span, copy it onto the root when the key matches the policy. -/
def propagateLoop (root : Span) : World → Attrs → World
  | w, [] => w
  | w, kv :: rest =>
    propagateLoop root
      (if matchesPolicy kv.1 then setAttribute w root kv.1 kv.2 else w) rest

/-- `RootSpanContextProcessor.onEnd(span)`: read `roots.get(traceId)` once;
when a root exists and is a different span, copy the ending span's matching
attributes onto it (`if (root && root !== span) ...`); when the root is the
ending span itself, the copy loop is skipped and the registry entry is
deleted (`if (root === span) this.roots.delete(traceId)`). -/
def Processor.onEnd (w : World) (span : Span) : World :=
  match mapGet w.procRoots span.traceId with
  | some root =>
    if root = span then
      { w with procRoots := mapDelete w.procRoots span.traceId }
    else
      propagateLoop root w (w.heap span.spanId)
  | none => w

/-- `RootSpanUtil.withRootSpan(fn)`: when a span is active, store it in the
utility's static map under its traceId (unconditional `Map.set`), then run
`fn`; the bookkeeping effect on the maps is what is modelled, `fn`'s own
effects happen outside this call. -/
def RootSpanUtil.withRootSpan (w : World) (active : Option Span) : World :=
  match active with
  | some a => { w with utilRoots := mapSet w.utilRoots a.traceId a }
  | none => w

/-- `RootSpanUtil.setRootAttribute(key, value)`: return unchanged when no span
is active; otherwise set the attribute on the utility map's root for the
active span's traceId, falling back to the active span itself (`?? active`).
The source never throws; the model is a total function. -/
def RootSpanUtil.setRootAttribute (w : World) (active : Option Span)
    (k v : String) : World :=
  match active with
  | none => w
  | some a => setAttribute w ((mapGet w.utilRoots a.traceId).getD a) k v

/-- `RootSpanUtil.getRootSpan()`: look the active span's traceId up in the
utility's static map, absent when no span is active. -/
def RootSpanUtil.getRootSpan (w : World) (active : Option Span) : Option Span :=
  match active with
  | some a => mapGet w.utilRoots a.traceId
  | none => none

/-- A span-lifecycle event as delivered to the processor. -/
inductive Event where
  | start (span : Span) (parentContext : Option Context) (ambient : Context)
  | finish (span : Span)
  deriving Repr

/-- Dispatch one lifecycle event to the processor. -/
def stepEvent (w : World) : Event → World
  | .start s pc amb => Processor.onStart w s pc amb
  | .finish s => Processor.onEnd w s

/-- Process a sequence of lifecycle events in order. -/
def run (w : World) (es : List Event) : World := es.foldl stepEvent w

/-- A call to the `RootSpanUtil` accessor surface. -/
inductive UtilCall where
  | withRoot (active : Option Span)
  | setRootAttr (active : Option Span) (k v : String)
  | getRoot (active : Option Span)
  deriving Repr

/-- Apply one accessor call to the state (`getRootSpan` is a pure read). -/
def stepUtil (w : World) : UtilCall → World
  | .withRoot a => RootSpanUtil.withRootSpan w a
  | .setRootAttr a k v => RootSpanUtil.setRootAttribute w a k v
  | .getRoot _ => w

/-- Apply a sequence of accessor calls in order. -/
def runUtil (w : World) (cs : List UtilCall) : World := cs.foldl stepUtil w

/-- The span `s` was started with no active span in its parent context
somewhere in the event sequence `es`. -/
def StartedParentless (es : List Event) (s : Span) : Prop :=
  ∃ pc amb, Event.start s pc amb ∈ es ∧ getSpanFromContext pc = none

/-! ### Association-list lemmas (JS `Map` / object semantics) -/

theorem mapGet_mapSet_self {α : Type} (m : List (String × α)) (k : String) (v : α) :
    mapGet (mapSet m k v) k = some v := by
  induction m with
  | nil => simp [mapSet, mapGet]
  | cons e rest ih =>
    obtain ⟨k1, v1⟩ := e
    by_cases h : k1 = k
    · simp [mapSet, h, mapGet]
    · simp [mapSet, h, mapGet, ih]

theorem mapGet_mapSet_ne {α : Type} (m : List (String × α)) {k t : String} (v : α)
    (h : t ≠ k) : mapGet (mapSet m k v) t = mapGet m t := by
  induction m with
  | nil => simp [mapSet, mapGet, Ne.symm h]
  | cons e rest ih =>
    obtain ⟨k1, v1⟩ := e
    by_cases h1 : k1 = k
    · subst h1
      simp [mapSet, mapGet, Ne.symm h]
    · simp [mapSet, h1, mapGet, ih]

theorem mapGet_eq_none_of_not_mem {α : Type} {m : List (String × α)} {k : String}
    (h : k ∉ m.map Prod.fst) : mapGet m k = none := by
  induction m with
  | nil => rfl
  | cons e rest ih =>
    obtain ⟨k1, v1⟩ := e
    simp only [List.map_cons, List.mem_cons] at h
    push_neg at h
    simp [mapGet, Ne.symm h.1, ih h.2]

theorem not_mem_of_mapGet_eq_none {α : Type} {m : List (String × α)} {k : String}
    (h : mapGet m k = none) : k ∉ m.map Prod.fst := by
  induction m with
  | nil => simp
  | cons e rest ih =>
    obtain ⟨k1, v1⟩ := e
    by_cases h1 : k1 = k
    · simp [mapGet, h1] at h
    · simp only [mapGet, h1, if_false] at h
      simp [Ne.symm h1, ih h]

theorem mapSet_of_absent {α : Type} {m : List (String × α)} {k : String} (v : α)
    (h : mapGet m k = none) : mapSet m k v = m ++ [(k, v)] := by
  induction m with
  | nil => rfl
  | cons e rest ih =>
    obtain ⟨k1, v1⟩ := e
    by_cases h1 : k1 = k
    · simp [mapGet, h1] at h
    · simp only [mapGet, h1, if_false] at h
      simp [mapSet, h1, ih h]

theorem mem_keys_mapSet {α : Type} {m : List (String × α)} {t : String}
    (k : String) (v : α) (h : t ∈ m.map Prod.fst) :
    t ∈ (mapSet m k v).map Prod.fst := by
  induction m with
  | nil => simp at h
  | cons e rest ih =>
    obtain ⟨k1, v1⟩ := e
    by_cases h1 : k1 = k
    · subst h1
      simpa [mapSet] using h
    · simp only [List.map_cons, List.mem_cons] at h
      rcases h with h | h
      · simp [mapSet, h1, h]
      · simp [mapSet, h1, ih h]

theorem mapGet_mapDelete_self {α : Type} (m : List (String × α)) (k : String) :
    mapGet (mapDelete m k) k = none := by
  induction m with
  | nil => rfl
  | cons e rest ih =>
    obtain ⟨k1, v1⟩ := e
    simp only [mapDelete, List.filter_cons] at ih ⊢
    by_cases h1 : k1 = k
    · simp [h1, ih]
    · simp [h1, mapGet, ih]

theorem mapGet_mapDelete_ne {α : Type} (m : List (String × α)) {k t : String}
    (h : t ≠ k) : mapGet (mapDelete m k) t = mapGet m t := by
  induction m with
  | nil => rfl
  | cons e rest ih =>
    obtain ⟨k1, v1⟩ := e
    simp only [mapDelete, List.filter_cons] at ih ⊢
    by_cases h1 : k1 = k
    · subst h1
      have hk1t : ¬ k1 = t := Ne.symm h
      simp [mapGet, hk1t, ih]
    · simp [h1, mapGet, ih]

theorem mapDelete_of_not_mem {α : Type} {m : List (String × α)} {k : String}
    (h : k ∉ m.map Prod.fst) : mapDelete m k = m := by
  apply List.filter_eq_self.mpr
  intro e he
  simp only [Bool.not_eq_eq_eq_not, Bool.not_true, beq_eq_false_iff_ne, ne_eq]
  intro hk
  exact h (List.mem_map.mpr ⟨e, he, hk⟩)

theorem mapDelete_length {α : Type} {m : List (String × α)} {k : String} {v : α}
    (hnd : (m.map Prod.fst).Nodup) (h : mapGet m k = some v) :
    (mapDelete m k).length + 1 = m.length := by
  induction m with
  | nil => simp [mapGet] at h
  | cons e rest ih =>
    obtain ⟨k1, v1⟩ := e
    simp only [List.map_cons, List.nodup_cons] at hnd
    by_cases h1 : k1 = k
    · subst h1
      have hrest : mapDelete rest k1 = rest :=
        mapDelete_of_not_mem hnd.1
      simp only [mapDelete, List.filter_cons] at hrest ⊢
      simp [hrest]
    · simp only [mapGet, h1, if_false] at h
      have hlen := ih hnd.2 h
      simp only [mapDelete, List.filter_cons] at hlen ⊢
      simp only [h1, List.length_cons]
      simp only [show ((k1, v1).1 == k) = false by simpa using h1, Bool.not_false,
        if_true, List.length_cons]
      omega

/-! ### Lemmas about the state operations -/

theorem string_append_left_cancel {s t u : String} (h : s ++ t = s ++ u) : t = u := by
  obtain ⟨sd⟩ := s
  obtain ⟨td⟩ := t
  obtain ⟨ud⟩ := u
  have hd : sd ++ td = sd ++ ud := congrArg String.data h
  exact congrArg String.mk (List.append_cancel_left hd)

theorem setAttribute_procRoots (w : World) (s : Span) (k v : String) :
    (setAttribute w s k v).procRoots = w.procRoots := rfl

theorem setAttribute_utilRoots (w : World) (s : Span) (k v : String) :
    (setAttribute w s k v).utilRoots = w.utilRoots := rfl

theorem setAttribute_heap_self (w : World) (s : Span) (k v : String) :
    (setAttribute w s k v).heap s.spanId = mapSet (w.heap s.spanId) k v := by
  simp [setAttribute]

theorem setAttribute_heap_ne (w : World) (s : Span) (k v : String) {i : String}
    (h : i ≠ s.spanId) : (setAttribute w s k v).heap i = w.heap i := by
  simp [setAttribute, h]

theorem baggageLoop_procRoots (s : Span) (bag : List (String × String)) (w : World) :
    (baggageLoop s w bag).procRoots = w.procRoots := by
  induction bag generalizing w with
  | nil => rfl
  | cons kv rest ih => simp [baggageLoop, ih, setAttribute_procRoots]

theorem baggageLoop_utilRoots (s : Span) (bag : List (String × String)) (w : World) :
    (baggageLoop s w bag).utilRoots = w.utilRoots := by
  induction bag generalizing w with
  | nil => rfl
  | cons kv rest ih => simp [baggageLoop, ih, setAttribute_utilRoots]

theorem baggageLoop_heap_ne (s : Span) (bag : List (String × String)) (w : World)
    {i : String} (h : i ≠ s.spanId) :
    (baggageLoop s w bag).heap i = w.heap i := by
  induction bag generalizing w with
  | nil => rfl
  | cons kv rest ih => simp [baggageLoop, ih, setAttribute_heap_ne _ _ _ _ h]

theorem baggageLoop_get_notin (s : Span) (bag : List (String × String)) (w : World)
    {K : String} (h : K ∉ bag.map (fun kv => "baggage." ++ kv.1)) :
    mapGet ((baggageLoop s w bag).heap s.spanId) K = mapGet (w.heap s.spanId) K := by
  induction bag generalizing w with
  | nil => rfl
  | cons kv rest ih =>
    simp only [List.map_cons, List.mem_cons] at h
    push_neg at h
    simp only [baggageLoop]
    rw [ih _ h.2, setAttribute_heap_self, mapGet_mapSet_ne _ _ h.1]

theorem baggageLoop_get_mem (s : Span) (bag : List (String × String)) (w : World)
    {k v : String} (hnd : (bag.map Prod.fst).Nodup) (hmem : (k, v) ∈ bag) :
    mapGet ((baggageLoop s w bag).heap s.spanId) ("baggage." ++ k) = some v := by
  induction bag generalizing w with
  | nil => simp at hmem
  | cons kv rest ih =>
    obtain ⟨k1, v1⟩ := kv
    simp only [List.map_cons, List.nodup_cons] at hnd
    rcases List.mem_cons.mp hmem with hh | hh
    · have hk : k = k1 := congrArg Prod.fst hh
      have hv : v = v1 := congrArg Prod.snd hh
      subst hk
      subst hv
      simp only [baggageLoop]
      have hnotin : ("baggage." ++ k) ∉ rest.map (fun kv => "baggage." ++ kv.1) := by
        intro hc
        rcases List.mem_map.mp hc with ⟨e, he, hk2⟩
        exact hnd.1 (string_append_left_cancel hk2 ▸ List.mem_map.mpr ⟨e, he, rfl⟩)
      rw [baggageLoop_get_notin _ _ _ hnotin, setAttribute_heap_self,
        mapGet_mapSet_self]
    · simp only [baggageLoop]
      exact ih _ hnd.2 hh

theorem propagateLoop_procRoots (r : Span) (as : Attrs) (w : World) :
    (propagateLoop r w as).procRoots = w.procRoots := by
  induction as generalizing w with
  | nil => rfl
  | cons kv rest ih =>
    simp only [propagateLoop]
    rw [ih]
    by_cases h : matchesPolicy kv.1 <;> simp [h, setAttribute_procRoots]

theorem propagateLoop_utilRoots (r : Span) (as : Attrs) (w : World) :
    (propagateLoop r w as).utilRoots = w.utilRoots := by
  induction as generalizing w with
  | nil => rfl
  | cons kv rest ih =>
    simp only [propagateLoop]
    rw [ih]
    by_cases h : matchesPolicy kv.1 <;> simp [h, setAttribute_utilRoots]

theorem propagateLoop_heap_ne (r : Span) (as : Attrs) (w : World) {i : String}
    (h : i ≠ r.spanId) : (propagateLoop r w as).heap i = w.heap i := by
  induction as generalizing w with
  | nil => rfl
  | cons kv rest ih =>
    simp only [propagateLoop]
    rw [ih]
    by_cases hm : matchesPolicy kv.1 <;> simp [hm, setAttribute_heap_ne _ _ _ _ h]

theorem propagateLoop_get_notin (r : Span) (as : Attrs) (w : World) {k : String}
    (h : k ∉ as.map Prod.fst) :
    mapGet ((propagateLoop r w as).heap r.spanId) k
      = mapGet (w.heap r.spanId) k := by
  induction as generalizing w with
  | nil => rfl
  | cons kv rest ih =>
    simp only [List.map_cons, List.mem_cons] at h
    push_neg at h
    simp only [propagateLoop]
    rw [ih _ h.2]
    by_cases hm : matchesPolicy kv.1
    · simp only [hm, if_true]
      rw [setAttribute_heap_self, mapGet_mapSet_ne _ _ h.1]
    · simp [hm]

theorem propagateLoop_get_nomatch (r : Span) (as : Attrs) (w : World) {k : String}
    (h : matchesPolicy k = false) :
    mapGet ((propagateLoop r w as).heap r.spanId) k
      = mapGet (w.heap r.spanId) k := by
  induction as generalizing w with
  | nil => rfl
  | cons kv rest ih =>
    simp only [propagateLoop]
    rw [ih]
    by_cases hk : kv.1 = k
    · rw [hk, h]
      simp
    · by_cases hm : matchesPolicy kv.1
      · simp only [hm, if_true]
        rw [setAttribute_heap_self, mapGet_mapSet_ne _ _ (Ne.symm hk)]
      · simp [hm]

theorem propagateLoop_get_match (r : Span) (as : Attrs) (w : World) {k v : String}
    (hm : matchesPolicy k = true) (hnd : (as.map Prod.fst).Nodup)
    (hv : mapGet as k = some v) :
    mapGet ((propagateLoop r w as).heap r.spanId) k = some v := by
  induction as generalizing w with
  | nil => simp [mapGet] at hv
  | cons kv rest ih =>
    obtain ⟨k1, v1⟩ := kv
    simp only [List.map_cons, List.nodup_cons] at hnd
    by_cases hk : k1 = k
    · subst hk
      simp only [mapGet, if_pos rfl] at hv
      simp only [propagateLoop, hm, if_true]
      have hnotin : k1 ∉ rest.map Prod.fst := hnd.1
      rw [propagateLoop_get_notin _ _ _ hnotin, setAttribute_heap_self,
        mapGet_mapSet_self]
      exact hv
    · simp only [mapGet, hk, if_false] at hv
      simp only [propagateLoop]
      by_cases hm1 : matchesPolicy k1
      · simp only [hm1, if_true]
        exact ih _ hnd.2 hv
      · simp only [hm1, if_false]
        exact ih _ hnd.2 hv

theorem onStart_eq_of_parentless_absent (w : World) (span : Span)
    (pc : Option Context) (amb : Context)
    (hp : getSpanFromContext pc = none)
    (habs : mapGet w.procRoots span.traceId = none) :
    Processor.onStart w span pc amb
      = baggageLoop span { w with procRoots := mapSet w.procRoots span.traceId span }
          (pc.getD amb).baggage := by
  simp [Processor.onStart, hp, habs]

theorem onStart_eq_of_no_registration (w : World) (span : Span)
    (pc : Option Context) (amb : Context)
    (h : getSpanFromContext pc ≠ none ∨ mapGet w.procRoots span.traceId ≠ none) :
    Processor.onStart w span pc amb = baggageLoop span w (pc.getD amb).baggage := by
  rcases h with h | h
  · simp [Processor.onStart, h]
  · by_cases hp : getSpanFromContext pc = none
    · simp [Processor.onStart, hp, h]
    · simp [Processor.onStart, hp]

theorem onEnd_eq_of_none (w : World) (span : Span)
    (h : mapGet w.procRoots span.traceId = none) :
    Processor.onEnd w span = w := by
  simp [Processor.onEnd, h]

theorem onEnd_eq_of_root_self (w : World) (span : Span)
    (h : mapGet w.procRoots span.traceId = some span) :
    Processor.onEnd w span
      = { w with procRoots := mapDelete w.procRoots span.traceId } := by
  simp [Processor.onEnd, h]

theorem onEnd_eq_of_other (w : World) (span root : Span)
    (h : mapGet w.procRoots span.traceId = some root) (hne : root ≠ span) :
    Processor.onEnd w span = propagateLoop root w (w.heap span.spanId) := by
  simp [Processor.onEnd, h, hne]

/-! ### The claims -/

/-- C1: on a span-end event with a registered root that differs from the ending
span, an attribute `(k, v)` of the ending span is copied onto the root if and
only if `k` starts with `error_` or equals `custom_attribute` or
`merchant_name`: a matching key present on the ending span ends up on the root
with the ending span's value, while for a non-matching key — or a key absent
from the ending span — the root's attribute map is unchanged at that key, so
the root never gains such an attribute from propagation. -/
theorem c1_propagation_filter (w : World) (span root : Span) (k : String)
    (hroot : mapGet w.procRoots span.traceId = some root)
    (hne : root ≠ span)
    (hnd : ((w.heap span.spanId).map Prod.fst).Nodup) :
    (∀ v, matchesPolicy k = true → mapGet (w.heap span.spanId) k = some v →
        mapGet ((Processor.onEnd w span).heap root.spanId) k = some v) ∧
    (matchesPolicy k = false →
        mapGet ((Processor.onEnd w span).heap root.spanId) k
          = mapGet (w.heap root.spanId) k) ∧
    (mapGet (w.heap span.spanId) k = none →
        mapGet ((Processor.onEnd w span).heap root.spanId) k
          = mapGet (w.heap root.spanId) k) := by
  rw [onEnd_eq_of_other w span root hroot hne]
  refine ⟨?_, ?_, ?_⟩
  · intro v hm hv
    exact propagateLoop_get_match root _ w hm hnd hv
  · intro hm
    exact propagateLoop_get_nomatch root _ w hm
  · intro habs
    exact propagateLoop_get_notin root _ w (not_mem_of_mapGet_eq_none habs)

/-- Witness for C1, the spec's own example: root `R` (spanId `r`), child `C`
(spanId `c`) ending with `{error_code: E1, custom_attribute: x, unrelated: y}`;
after `C`'s end event `R` has `error_code = E1` and `custom_attribute = x`,
and gains no `unrelated` attribute. -/
theorem c1_propagation_filter_witness :
    mapGet ((Processor.onEnd
        ⟨[("t", ⟨"t", "r", none⟩)], [],
          fun i => if i = "c"
            then [("error_code", "E1"), ("custom_attribute", "x"), ("unrelated", "y")]
            else []⟩
        ⟨"t", "c", some "r"⟩).heap "r") "error_code" = some "E1" ∧
    mapGet ((Processor.onEnd
        ⟨[("t", ⟨"t", "r", none⟩)], [],
          fun i => if i = "c"
            then [("error_code", "E1"), ("custom_attribute", "x"), ("unrelated", "y")]
            else []⟩
        ⟨"t", "c", some "r"⟩).heap "r") "custom_attribute" = some "x" ∧
    mapGet ((Processor.onEnd
        ⟨[("t", ⟨"t", "r", none⟩)], [],
          fun i => if i = "c"
            then [("error_code", "E1"), ("custom_attribute", "x"), ("unrelated", "y")]
            else []⟩
        ⟨"t", "c", some "r"⟩).heap "r") "unrelated" = none := by
  refine ⟨?_, ?_, ?_⟩
  · exact (c1_propagation_filter
      (⟨[("t", ⟨"t", "r", none⟩)], [],
        fun i => if i = "c"
          then [("error_code", "E1"), ("custom_attribute", "x"), ("unrelated", "y")]
          else []⟩ : World) ⟨"t", "c", some "r"⟩ ⟨"t", "r", none⟩
      "error_code" (by decide) (by decide) (by decide)).1 "E1" (by decide) (by decide)
  · exact (c1_propagation_filter
      (⟨[("t", ⟨"t", "r", none⟩)], [],
        fun i => if i = "c"
          then [("error_code", "E1"), ("custom_attribute", "x"), ("unrelated", "y")]
          else []⟩ : World) ⟨"t", "c", some "r"⟩ ⟨"t", "r", none⟩
      "custom_attribute" (by decide) (by decide) (by decide)).1 "x" (by decide) (by decide)
  · have h := (c1_propagation_filter
      (⟨[("t", ⟨"t", "r", none⟩)], [],
        fun i => if i = "c"
          then [("error_code", "E1"), ("custom_attribute", "x"), ("unrelated", "y")]
          else []⟩ : World) ⟨"t", "c", some "r"⟩ ⟨"t", "r", none⟩
      "unrelated" (by decide) (by decide) (by decide)).2.1 (by decide)
    rw [h]
    decide

/-- C3: `setRootAttribute(key, value)` is a no-op when no span is active; when
a span is active and the registry lookup for its traceId finds a root, the
attribute is set on that root; when the lookup is absent, the attribute is set
on the active span itself.  The operation is a total function of the state, so
it never raises. -/
theorem c3_setRootAttribute_cases (w : World) (k v : String) :
    (RootSpanUtil.setRootAttribute w none k v = w) ∧
    (∀ a root, mapGet w.utilRoots a.traceId = some root →
        mapGet ((RootSpanUtil.setRootAttribute w (some a) k v).heap root.spanId) k
          = some v) ∧
    (∀ a, mapGet w.utilRoots a.traceId = none →
        mapGet ((RootSpanUtil.setRootAttribute w (some a) k v).heap a.spanId) k
          = some v) := by
  refine ⟨rfl, ?_, ?_⟩
  · intro a root h
    simp only [RootSpanUtil.setRootAttribute, h, Option.getD_some]
    rw [setAttribute_heap_self, mapGet_mapSet_self]
  · intro a h
    simp only [RootSpanUtil.setRootAttribute, h, Option.getD_none]
    rw [setAttribute_heap_self, mapGet_mapSet_self]

/-- Witness for C3: the empty-active no-op at a concrete state; a set through
a registered root (trace `t`, root spanId `r`, active child `c`); and the
fallback onto the active span itself when the utility map is empty. -/
theorem c3_setRootAttribute_cases_witness :
    (RootSpanUtil.setRootAttribute (⟨[], [], fun _ => []⟩ : World) none "k" "v"
      = (⟨[], [], fun _ => []⟩ : World)) ∧
    mapGet ((RootSpanUtil.setRootAttribute
        (⟨[], [("t", ⟨"t", "r", none⟩)], fun _ => []⟩ : World)
        (some ⟨"t", "c", some "r"⟩) "k" "v").heap "r") "k" = some "v" ∧
    mapGet ((RootSpanUtil.setRootAttribute (⟨[], [], fun _ => []⟩ : World)
        (some ⟨"t", "c", some "r"⟩) "k" "v").heap "c") "k" = some "v" := by
  refine ⟨(c3_setRootAttribute_cases (⟨[], [], fun _ => []⟩ : World) "k" "v").1, ?_, ?_⟩
  · exact (c3_setRootAttribute_cases
      (⟨[], [("t", ⟨"t", "r", none⟩)], fun _ => []⟩ : World) "k" "v").2.1
      ⟨"t", "c", some "r"⟩ ⟨"t", "r", none⟩ (by decide)
  · exact (c3_setRootAttribute_cases (⟨[], [], fun _ => []⟩ : World) "k" "v").2.2
      ⟨"t", "c", some "r"⟩ (by decide)

/-- C4: root registration is idempotent with first-writer-wins semantics: when
two parentless spans of the same traceId start while no root is registered for
it, the registry maps the traceId to the first span, and the second start
event leaves the registry exactly as the first left it. -/
theorem c4_first_writer_wins (w : World) (s1 s2 : Span) (pc1 pc2 : Option Context)
    (amb1 amb2 : Context)
    (htid : s2.traceId = s1.traceId)
    (habs : mapGet w.procRoots s1.traceId = none)
    (hp1 : getSpanFromContext pc1 = none) (hp2 : getSpanFromContext pc2 = none) :
    mapGet (Processor.onStart (Processor.onStart w s1 pc1 amb1) s2 pc2 amb2).procRoots
        s1.traceId = some s1 ∧
    (Processor.onStart (Processor.onStart w s1 pc1 amb1) s2 pc2 amb2).procRoots
      = (Processor.onStart w s1 pc1 amb1).procRoots := by
  have h1 : (Processor.onStart w s1 pc1 amb1).procRoots
      = mapSet w.procRoots s1.traceId s1 := by
    rw [onStart_eq_of_parentless_absent w s1 pc1 amb1 hp1 habs, baggageLoop_procRoots]
  have hget : mapGet (Processor.onStart w s1 pc1 amb1).procRoots s2.traceId
      = some s1 := by
    rw [h1, htid, mapGet_mapSet_self]
  have h2 : Processor.onStart (Processor.onStart w s1 pc1 amb1) s2 pc2 amb2
      = baggageLoop s2 (Processor.onStart w s1 pc1 amb1) (pc2.getD amb2).baggage :=
    onStart_eq_of_no_registration _ s2 pc2 amb2 (Or.inr (by rw [hget]; simp))
  constructor
  · rw [h2, baggageLoop_procRoots, h1, mapGet_mapSet_self]
  · rw [h2, baggageLoop_procRoots]

/-- Witness for C4: two parentless spans `a` and `b` of trace `t` starting
from the empty state; the registry maps `t` to the first and is untouched by
the second start. -/
theorem c4_first_writer_wins_witness :
    mapGet (Processor.onStart
        (Processor.onStart World.init ⟨"t", "a", none⟩ (some ⟨none, []⟩) ⟨none, []⟩)
        ⟨"t", "b", none⟩ (some ⟨none, []⟩) ⟨none, []⟩).procRoots "t"
      = some ⟨"t", "a", none⟩ ∧
    (Processor.onStart
        (Processor.onStart World.init ⟨"t", "a", none⟩ (some ⟨none, []⟩) ⟨none, []⟩)
        ⟨"t", "b", none⟩ (some ⟨none, []⟩) ⟨none, []⟩).procRoots
      = (Processor.onStart World.init ⟨"t", "a", none⟩
          (some ⟨none, []⟩) ⟨none, []⟩).procRoots :=
  c4_first_writer_wins World.init ⟨"t", "a", none⟩ ⟨"t", "b", none⟩
    (some ⟨none, []⟩) (some ⟨none, []⟩) ⟨none, []⟩ ⟨none, []⟩
    (by decide) (by decide) (by decide) (by decide)

/-- C5: `onEnd` removes the registry entry for the ending span's traceId if
and only if the ending span is the span stored as that trace's root: when the
stored root is the ending span the entry becomes absent, when it is not the
registry is left completely unchanged, and entries of other traceIds are never
affected. -/
theorem c5_removal_iff_root_ends (w : World) (s : Span) :
    (mapGet w.procRoots s.traceId = some s →
        mapGet (Processor.onEnd w s).procRoots s.traceId = none) ∧
    (mapGet w.procRoots s.traceId ≠ some s →
        (Processor.onEnd w s).procRoots = w.procRoots) ∧
    (∀ tid, tid ≠ s.traceId →
        mapGet (Processor.onEnd w s).procRoots tid = mapGet w.procRoots tid) := by
  refine ⟨?_, ?_, ?_⟩
  · intro h
    rw [onEnd_eq_of_root_self w s h]
    exact mapGet_mapDelete_self _ _
  · intro h
    cases hc : mapGet w.procRoots s.traceId with
    | none => rw [onEnd_eq_of_none w s hc]
    | some r =>
      have hne : r ≠ s := fun he => h (he ▸ hc)
      rw [onEnd_eq_of_other w s r hc hne, propagateLoop_procRoots]
  · intro tid htid
    cases hc : mapGet w.procRoots s.traceId with
    | none => rw [onEnd_eq_of_none w s hc]
    | some r =>
      by_cases he : r = s
      · rw [onEnd_eq_of_root_self w s (he ▸ hc)]
        exact mapGet_mapDelete_ne _ htid
      · rw [onEnd_eq_of_other w s r hc he, propagateLoop_procRoots]

/-- Witness for C5: with roots `{t ↦ R, u ↦ U}`, ending root `R` removes `t`'s
entry and leaves `u`'s; ending the child `C` of trace `t` leaves the registry
unchanged. -/
theorem c5_removal_iff_root_ends_witness :
    mapGet (Processor.onEnd
        (⟨[("t", ⟨"t", "r", none⟩), ("u", ⟨"u", "s", none⟩)], [], fun _ => []⟩ : World)
        ⟨"t", "r", none⟩).procRoots "t" = none ∧
    mapGet (Processor.onEnd
        (⟨[("t", ⟨"t", "r", none⟩), ("u", ⟨"u", "s", none⟩)], [], fun _ => []⟩ : World)
        ⟨"t", "r", none⟩).procRoots "u"
      = mapGet ([("t", ⟨"t", "r", none⟩), ("u", ⟨"u", "s", none⟩)] :
          List (String × Span)) "u" ∧
    (Processor.onEnd
        (⟨[("t", ⟨"t", "r", none⟩), ("u", ⟨"u", "s", none⟩)], [], fun _ => []⟩ : World)
        ⟨"t", "c", some "r"⟩).procRoots
      = [("t", ⟨"t", "r", none⟩), ("u", ⟨"u", "s", none⟩)] := by
  refine ⟨?_, ?_, ?_⟩
  · exact (c5_removal_iff_root_ends
      (⟨[("t", ⟨"t", "r", none⟩), ("u", ⟨"u", "s", none⟩)], [], fun _ => []⟩ : World)
      ⟨"t", "r", none⟩).1 (by decide)
  · exact (c5_removal_iff_root_ends
      (⟨[("t", ⟨"t", "r", none⟩), ("u", ⟨"u", "s", none⟩)], [], fun _ => []⟩ : World)
      ⟨"t", "r", none⟩).2.2 "u" (by decide)
  · exact (c5_removal_iff_root_ends
      (⟨[("t", ⟨"t", "r", none⟩), ("u", ⟨"u", "s", none⟩)], [], fun _ => []⟩ : World)
      ⟨"t", "c", some "r"⟩).2.1 (by decide)

/-- C7: propagation is last-write-wins on the root: when two children `c1`
and `c2` of the registered root's trace both carry the matching key `k` and
their end events are processed in the order `c1` then `c2`, the root's final
value for `k` is `c2`'s value. -/
theorem c7_last_write_wins (w : World) (root c1 c2 : Span) (k v1 v2 : String)
    (hroot : mapGet w.procRoots c1.traceId = some root)
    (htid : c2.traceId = c1.traceId)
    (hne1 : root ≠ c1) (hne2 : root ≠ c2)
    (hid2 : root.spanId ≠ c2.spanId)
    (hm : matchesPolicy k = true)
    (hv1 : mapGet (w.heap c1.spanId) k = some v1)
    (hv2 : mapGet (w.heap c2.spanId) k = some v2)
    (hnd2 : ((w.heap c2.spanId).map Prod.fst).Nodup) :
    mapGet ((Processor.onEnd (Processor.onEnd w c1) c2).heap root.spanId) k
      = some v2 := by
  have hw1eq : Processor.onEnd w c1 = propagateLoop root w (w.heap c1.spanId) :=
    onEnd_eq_of_other w c1 root hroot hne1
  have hroots1 : (Processor.onEnd w c1).procRoots = w.procRoots := by
    rw [hw1eq, propagateLoop_procRoots]
  have hroot2 : mapGet (Processor.onEnd w c1).procRoots c2.traceId = some root := by
    rw [hroots1, htid, hroot]
  have hheap2 : (Processor.onEnd w c1).heap c2.spanId = w.heap c2.spanId := by
    rw [hw1eq]
    exact propagateLoop_heap_ne root _ w (Ne.symm hid2)
  rw [onEnd_eq_of_other (Processor.onEnd w c1) c2 root hroot2 hne2]
  refine propagateLoop_get_match root _ _ hm ?_ ?_
  · rw [hheap2]
    exact hnd2
  · rw [hheap2]
    exact hv2

/-- Witness for C7: children `c1` (value `v1`) and `c2` (value `v2`) of trace
`t` both carry `custom_attribute`; after ending `c1` then `c2`, root `r` holds
`v2`. -/
theorem c7_last_write_wins_witness :
    mapGet ((Processor.onEnd (Processor.onEnd
        (⟨[("t", ⟨"t", "r", none⟩)], [],
          fun i => if i = "c1" then [("custom_attribute", "v1")]
            else if i = "c2" then [("custom_attribute", "v2")] else []⟩ : World)
        ⟨"t", "c1", some "r"⟩) ⟨"t", "c2", some "r"⟩).heap "r") "custom_attribute"
      = some "v2" :=
  c7_last_write_wins
    (⟨[("t", ⟨"t", "r", none⟩)], [],
      fun i => if i = "c1" then [("custom_attribute", "v1")]
        else if i = "c2" then [("custom_attribute", "v2")] else []⟩ : World)
    ⟨"t", "r", none⟩ ⟨"t", "c1", some "r"⟩ ⟨"t", "c2", some "r"⟩
    "custom_attribute" "v1" "v2"
    (by decide) (by decide) (by decide) (by decide) (by decide) (by decide)
    (by decide) (by decide) (by decide)

/-- C8: after the end event of a trace's registered root span is processed,
lookup of that traceId is absent and the registry has exactly one entry fewer
than immediately before the event. -/
theorem c8_root_end_cleanup (w : World) (root : Span)
    (hroot : mapGet w.procRoots root.traceId = some root)
    (hnd : (w.procRoots.map Prod.fst).Nodup) :
    mapGet (Processor.onEnd w root).procRoots root.traceId = none ∧
    (Processor.onEnd w root).procRoots.length + 1 = w.procRoots.length := by
  rw [onEnd_eq_of_root_self w root hroot]
  exact ⟨mapGet_mapDelete_self _ _, mapDelete_length hnd hroot⟩

/-- Witness for C8: with roots `{t ↦ R, u ↦ U}` (size 2), ending `R` leaves
`t` unmapped and size 1. -/
theorem c8_root_end_cleanup_witness :
    mapGet (Processor.onEnd
        (⟨[("t", ⟨"t", "r", none⟩), ("u", ⟨"u", "s", none⟩)], [], fun _ => []⟩ : World)
        ⟨"t", "r", none⟩).procRoots "t" = none ∧
    (Processor.onEnd
        (⟨[("t", ⟨"t", "r", none⟩), ("u", ⟨"u", "s", none⟩)], [], fun _ => []⟩ : World)
        ⟨"t", "r", none⟩).procRoots.length + 1 = 2 :=
  c8_root_end_cleanup
    (⟨[("t", ⟨"t", "r", none⟩), ("u", ⟨"u", "s", none⟩)], [], fun _ => []⟩ : World)
    ⟨"t", "r", none⟩ (by decide) (by decide)

/-- The registry invariant carried through an event history: keys are unique,
every entry maps a traceId to a span of that traceId, and every registered
span was started with no active span in its parent context. -/
def RegistryInv (es : List Event) (w : World) : Prop :=
  (w.procRoots.map Prod.fst).Nodup ∧
  ∀ p ∈ w.procRoots, p.1 = p.2.traceId ∧ StartedParentless es p.2

theorem registryInv_step (past : List Event) (e : Event) (w : World)
    (h : RegistryInv past w) : RegistryInv (past ++ [e]) (stepEvent w e) := by
  obtain ⟨hnd, hmem⟩ := h
  have hmono : ∀ s, StartedParentless past s → StartedParentless (past ++ [e]) s := by
    rintro s ⟨pc, amb, hin, hp⟩
    exact ⟨pc, amb, List.mem_append_left _ hin, hp⟩
  cases e with
  | start s pc amb =>
    by_cases hp : getSpanFromContext pc = none
    · by_cases habs : mapGet w.procRoots s.traceId = none
      · have heq : (stepEvent w (.start s pc amb)).procRoots
            = w.procRoots ++ [(s.traceId, s)] := by
          show (Processor.onStart w s pc amb).procRoots = _
          rw [onStart_eq_of_parentless_absent w s pc amb hp habs,
            baggageLoop_procRoots]
          exact mapSet_of_absent s habs
        constructor
        · rw [heq, List.map_append, List.nodup_append]
          refine ⟨hnd, by simp, ?_⟩
          intro a ha hb
          simp only [List.map_cons, List.map_nil, List.mem_singleton] at hb
          subst hb
          exact (not_mem_of_mapGet_eq_none habs) ha
        · intro p hep
          rw [heq] at hep
          rcases List.mem_append.mp hep with hin | hin
          · exact ⟨(hmem p hin).1, hmono _ (hmem p hin).2⟩
          · simp only [List.mem_singleton] at hin
            subst hin
            exact ⟨rfl, pc, amb, List.mem_append_right _ (by simp), hp⟩
      · have heq : (stepEvent w (.start s pc amb)).procRoots = w.procRoots := by
          show (Processor.onStart w s pc amb).procRoots = _
          rw [onStart_eq_of_no_registration w s pc amb (Or.inr habs),
            baggageLoop_procRoots]
        rw [RegistryInv, heq]
        exact ⟨hnd, fun p hin => ⟨(hmem p hin).1, hmono _ (hmem p hin).2⟩⟩
    · have heq : (stepEvent w (.start s pc amb)).procRoots = w.procRoots := by
        show (Processor.onStart w s pc amb).procRoots = _
        rw [onStart_eq_of_no_registration w s pc amb (Or.inl hp),
          baggageLoop_procRoots]
      rw [RegistryInv, heq]
      exact ⟨hnd, fun p hin => ⟨(hmem p hin).1, hmono _ (hmem p hin).2⟩⟩
  | finish s =>
    have hsub : ∀ rs, (stepEvent w (.finish s)).procRoots = rs →
        rs = w.procRoots ∨ rs = mapDelete w.procRoots s.traceId := by
      intro rs hrs
      cases hc : mapGet w.procRoots s.traceId with
      | none =>
        left
        rw [← hrs]
        show (Processor.onEnd w s).procRoots = _
        rw [onEnd_eq_of_none w s hc]
      | some r =>
        by_cases he : r = s
        · right
          rw [← hrs]
          show (Processor.onEnd w s).procRoots = _
          rw [onEnd_eq_of_root_self w s (he ▸ hc)]
        · left
          rw [← hrs]
          show (Processor.onEnd w s).procRoots = _
          rw [onEnd_eq_of_other w s r hc he, propagateLoop_procRoots]

    rcases hsub _ rfl with heq | heq
    · rw [RegistryInv, heq]
      exact ⟨hnd, fun p hin => ⟨(hmem p hin).1, hmono _ (hmem p hin).2⟩⟩
    · rw [RegistryInv, heq]
      constructor
      · exact hnd.sublist ((List.filter_sublist _).map _)
      · intro p hin
        have hin2 : p ∈ w.procRoots := List.mem_of_mem_filter hin
        exact ⟨(hmem p hin2).1, hmono _ (hmem p hin2).2⟩

theorem registryInv_run (es : List Event) : ∀ (past : List Event) (w : World),
    RegistryInv past w → RegistryInv (past ++ es) (run w es) := by
  induction es with
  | nil =>
    intro past w h
    simpa using h
  | cons e rest ih =>
    intro past w h
    have h2 := ih (past ++ [e]) (stepEvent w e) (registryInv_step past e w h)
    rw [List.append_assoc] at h2
    simpa [run, List.foldl_cons] using h2

/-- C6: for every sequence of start/end events processed from the initial
state, the Root Registry holds at most one entry per traceId (its key list has
no duplicates), and every registered entry maps a traceId to a span of that
traceId that was started with no active span in its parent context. -/
theorem c6_registry_invariant (es : List Event) :
    (((run World.init es).procRoots.map Prod.fst).Nodup) ∧
    ∀ p ∈ (run World.init es).procRoots,
      p.1 = p.2.traceId ∧ StartedParentless es p.2 := by
  have h := registryInv_run es [] World.init ⟨by simp [World.init], by simp [World.init]⟩
  simpa [RegistryInv] using h

/-- Witness for C6: a concrete interleaving of two traces — parentless `R`
(trace `t`) starts, parentless `U` (trace `u`) starts, a child of `t` starts
and ends — after which the registry keys are duplicate-free and `R`, still
registered, was started parentless. -/
theorem c6_registry_invariant_witness :
    (((run World.init
        [Event.start ⟨"t", "r", none⟩ (some ⟨none, []⟩) ⟨none, []⟩,
         Event.start ⟨"u", "s", none⟩ (some ⟨none, []⟩) ⟨none, []⟩,
         Event.start ⟨"t", "c", some "r"⟩
           (some ⟨some ⟨"t", "r", none⟩, []⟩) ⟨none, []⟩,
         Event.finish ⟨"t", "c", some "r"⟩]).procRoots.map Prod.fst).Nodup) ∧
    StartedParentless
      [Event.start ⟨"t", "r", none⟩ (some ⟨none, []⟩) ⟨none, []⟩,
       Event.start ⟨"u", "s", none⟩ (some ⟨none, []⟩) ⟨none, []⟩,
       Event.start ⟨"t", "c", some "r"⟩
         (some ⟨some ⟨"t", "r", none⟩, []⟩) ⟨none, []⟩,
       Event.finish ⟨"t", "c", some "r"⟩] ⟨"t", "r", none⟩ := by
  constructor
  · exact (c6_registry_invariant
      [Event.start ⟨"t", "r", none⟩ (some ⟨none, []⟩) ⟨none, []⟩,
       Event.start ⟨"u", "s", none⟩ (some ⟨none, []⟩) ⟨none, []⟩,
       Event.start ⟨"t", "c", some "r"⟩
         (some ⟨some ⟨"t", "r", none⟩, []⟩) ⟨none, []⟩,
       Event.finish ⟨"t", "c", some "r"⟩]).1
  · exact ((c6_registry_invariant
      [Event.start ⟨"t", "r", none⟩ (some ⟨none, []⟩) ⟨none, []⟩,
       Event.start ⟨"u", "s", none⟩ (some ⟨none, []⟩) ⟨none, []⟩,
       Event.start ⟨"t", "c", some "r"⟩
         (some ⟨some ⟨"t", "r", none⟩, []⟩) ⟨none, []⟩,
       Event.finish ⟨"t", "c", some "r"⟩]).2
      ("t", ⟨"t", "r", none⟩) (by decide)).2

theorem onStart_heap_shape (w : World) (span : Span) (pc : Option Context)
    (amb : Context) :
    ∃ rs, Processor.onStart w span pc amb
      = baggageLoop span ⟨rs, w.utilRoots, w.heap⟩ (pc.getD amb).baggage := by
  unfold Processor.onStart
  by_cases hp : getSpanFromContext pc = none
  · by_cases habs : mapGet w.procRoots span.traceId = none
    · exact ⟨mapSet w.procRoots span.traceId span, by simp [hp, habs]⟩
    · exact ⟨w.procRoots, by simp [hp, habs]⟩
  · exact ⟨w.procRoots, by simp [hp]⟩

/-- C9: on a span-start event, each baggage entry `(k, v)` of the supplied
parent context (falling back to the ambient context when none is supplied)
becomes an attribute `baggage.<k> = v` of exactly the started span: the
started span carries all of them, and every other span's attribute map is
untouched by the event, so spans started with different baggage do not receive
each other's entries. -/
theorem c9_baggage_projection (w : World) (span : Span) (pc : Option Context)
    (amb : Context)
    (hnd : (((pc.getD amb).baggage).map Prod.fst).Nodup) :
    (∀ k v, (k, v) ∈ (pc.getD amb).baggage →
        mapGet ((Processor.onStart w span pc amb).heap span.spanId)
          ("baggage." ++ k) = some v) ∧
    (∀ i, i ≠ span.spanId →
        (Processor.onStart w span pc amb).heap i = w.heap i) := by
  obtain ⟨rs, heq⟩ := onStart_heap_shape w span pc amb
  rw [heq]
  constructor
  · intro k v hmem
    exact baggageLoop_get_mem span _ _ hnd hmem
  · intro i hi
    exact baggageLoop_heap_ne span _ _ hi

/-- Witness for C9: baggage `{tenant: acme}` in the parent context at the
start of span `s` of trace `t` produces `baggage.tenant = acme` on `s`, and
the attribute map of an unrelated span `x` stays empty. -/
theorem c9_baggage_projection_witness :
    mapGet ((Processor.onStart World.init ⟨"t", "s", none⟩
        (some ⟨none, [("tenant", "acme")]⟩) ⟨none, []⟩).heap "s")
      "baggage.tenant" = some "acme" ∧
    (Processor.onStart World.init ⟨"t", "s", none⟩
        (some ⟨none, [("tenant", "acme")]⟩) ⟨none, []⟩).heap "x" = [] := by
  constructor
  · rw [show ("baggage.tenant" : String) = "baggage." ++ "tenant" by decide]
    exact (c9_baggage_projection World.init ⟨"t", "s", none⟩
      (some ⟨none, [("tenant", "acme")]⟩) ⟨none, []⟩ (by decide)).1
      "tenant" "acme" (by decide)
  · rw [(c9_baggage_projection World.init ⟨"t", "s", none⟩
      (some ⟨none, [("tenant", "acme")]⟩) ⟨none, []⟩ (by decide)).2 "x" (by decide)]
    rfl

/-- C2 (divergence evaluated on the code): the lifecycle processor and the
Root Accessor maintain two separate root maps.  After the processor registers
parentless span `R` of trace `t` (a start event with an empty parent context),
the processor registry resolves `t` to `R`, yet `getRootSpan` — called with
`R` active and consulting only `RootSpanUtil`'s own static map, which no
lifecycle event ever populates — returns absent.  The two views of "root of
this trace" disagree, refuting the claim that the accessor resolves roots
through the same registry the lifecycle listener maintains. -/
theorem c2_dual_registry_divergence :
    mapGet (Processor.onStart World.init ⟨"t", "r", none⟩
        (some ⟨none, []⟩) ⟨none, []⟩).procRoots "t"
      = some ⟨"t", "r", none⟩ ∧
    RootSpanUtil.getRootSpan (Processor.onStart World.init ⟨"t", "r", none⟩
        (some ⟨none, []⟩) ⟨none, []⟩) (some ⟨"t", "r", none⟩) = none := by
  decide

/-- C10 (counterexample): the accessor map's set of `(traceId, span)` entries
is not non-decreasing.  `withRootSpan` with the root `R` of trace `t` active
stores the entry `(t, R)`; a later `withRootSpan` with a child `C` of the same
trace active overwrites it with `(t, C)`, so the entry `(t, R)` is removed
from the entry set. -/
theorem c10_entry_set_decreases :
    ("t", (⟨"t", "r", none⟩ : Span)) ∈
      (RootSpanUtil.withRootSpan World.init (some ⟨"t", "r", none⟩)).utilRoots ∧
    ("t", (⟨"t", "r", none⟩ : Span)) ∉
      (RootSpanUtil.withRootSpan
        (RootSpanUtil.withRootSpan World.init (some ⟨"t", "r", none⟩))
        (some ⟨"t", "c", some "r"⟩)).utilRoots := by
  decide

/-- C10 (amended): no accessor operation ever deletes a key from the
utility's root map: over every sequence of `withRootSpan`, `setRootAttribute`
and `getRootSpan` calls the set of traceIds in the map is non-decreasing
(`withRootSpan` may overwrite the span stored under an existing traceId), so
map entries of traces whose root span has ended are never reclaimed through
the accessor itself. -/
theorem c10_keys_never_removed (cs : List UtilCall) (w : World) (tid : String)
    (h : tid ∈ w.utilRoots.map Prod.fst) :
    tid ∈ (runUtil w cs).utilRoots.map Prod.fst := by
  induction cs generalizing w with
  | nil => exact h
  | cons c rest ih =>
    apply ih
    cases c with
    | withRoot a =>
      cases a with
      | none => exact h
      | some s => exact mem_keys_mapSet _ _ h
    | setRootAttr a k v =>
      cases a with
      | none => exact h
      | some s => exact h
    | getRoot a => exact h

/-- Witness for C10 (amended): trace `t`, present in the utility map, is still
present after a `withRootSpan` overwrite, a `setRootAttribute` and a
`getRootSpan`. -/
theorem c10_keys_never_removed_witness :
    "t" ∈ ((runUtil (⟨[], [("t", ⟨"t", "r", none⟩)], fun _ => []⟩ : World)
        [UtilCall.withRoot (some ⟨"t", "c", some "r"⟩),
         UtilCall.setRootAttr (some ⟨"t", "c", some "r"⟩) "k" "v",
         UtilCall.getRoot none]).utilRoots.map Prod.fst) :=
  c10_keys_never_removed
    [UtilCall.withRoot (some ⟨"t", "c", some "r"⟩),
     UtilCall.setRootAttr (some ⟨"t", "c", some "r"⟩) "k" "v",
     UtilCall.getRoot none]
    (⟨[], [("t", ⟨"t", "r", none⟩)], fun _ => []⟩ : World) "t" (by decide)

end RootCtx
